import Mathlib

/-!
# Verification of the memoised minimax notebook

A shallow embedding of the code in `memoise_paper.ipynb`:

* the game tree (a `treelib` tree with unique node identifiers, loaded from
  `tree_tactoe_3x3.pkl`) becomes the finite rose tree `GTree`, whose nodes
  carry a `treelib` identifier (a `String`), the payload read through
  `data.is_endstate()` / `data.get_value()`, and the list of child subtrees
  (`tree.children(id)`);
* the uncached recursive evaluator `minmax_tt` becomes `minmax_tt`
  (with `minmaxNode`/`minmaxList` doing the recursion on subtrees — in a
  `treelib` tree node identifiers are unique, so `tree[child.identifier]`
  is exactly the child subtree and the identifier-indexed recursion of the
  Python code is the structural recursion on subtrees);
* the `Memoize_tree` decorator becomes explicit state passing of the
  association list `Memo`, keyed — as `function_call_hash = args[1:]` is —
  by the pair (identifier, role) and *not* by the tree;
* Python exceptions become the `Except Err` monad, with the error kinds of
  the specification: `NotFound` (identifier absent from the tree, treelib's
  `NodeIDAbsentError`), `InvalidTree` (`max`/`min` of an empty score list
  inside the evaluator), `NoLegalMoves` (`max`/`min` of the empty score
  array inside `determine_move`);
* `determine_move` returns the list of tying moves (the `moves[i]` at the
  indices `np.where(raw_scores == extremal)[0]`, in ascending index order);
  `random.choice` picks uniformly from exactly that list, so a move is
  returned with non-zero probability iff it belongs to the list;
* the warm-up loop over `itertools.permutations` of `range(1,9)` becomes
  `all_states` and `warm_up`, the latter with the bare `except: pass`
  modelled by keeping the memo accumulated so far and continuing.
-/

/-- Payload of a tree node: `data.is_endstate()` and `data.get_value()`. -/
structure NodeData where
  is_endstate : Bool
  value : Int

/-- The `treelib` game tree: identifier, payload, children. -/
inductive GTree : Type where
  | node : String → NodeData → List GTree → GTree

/-- The `treelib` identifier of the root node of a subtree. -/
def GTree.idOf : GTree → String
  | .node i _ _ => i

/-- The payload of the root node of a subtree. -/
def GTree.dataOf : GTree → NodeData
  | .node _ d _ => d

/-- The children `tree.children(id)` of the root node of a subtree. -/
def GTree.childrenOf : GTree → List GTree
  | .node _ _ cs => cs

mutual

/-- Node lookup `tree[key]`: depth-first search for the node with the given
identifier. -/
def GTree.find : GTree → String → Option GTree
  | .node i d cs, key =>
    if i = key then some (.node i d cs) else GTree.findL cs key

/-- Helper for `GTree.find` on a list of subtrees. -/
def GTree.findL : List GTree → String → Option GTree
  | [], _ => none
  | c :: cs, key =>
    match GTree.find c key with
    | some t => some t
    | none => GTree.findL cs key

end

mutual

/-- All subtrees (the tree itself included), i.e. all nodes of the tree. -/
def GTree.subtrees : GTree → List GTree
  | .node i d cs => .node i d cs :: GTree.subtreesL cs

/-- Helper for `GTree.subtrees` on a list of subtrees. -/
def GTree.subtreesL : List GTree → List GTree
  | [] => []
  | c :: cs => c.subtrees ++ GTree.subtreesL cs

end

/-- The `treelib` invariant: node identifiers are unique across the tree
(`treelib` refuses to insert a duplicated identifier). -/
def GTree.UniqueIds (t : GTree) : Prop :=
  (t.subtrees.map GTree.idOf).Nodup

/-- The error kinds of the specification for the Python exceptions. -/
inductive Err : Type where
  | NotFound
  | InvalidTree
  | NoLegalMoves

mutual

/-- Body of the uncached `minmax_tt` on the subtree rooted at the current
identifier: if `current_node.data.is_endstate()` return
`current_node.data.get_value()`; otherwise recursively evaluate every child
with the flipped role and return `max(scores)` / `min(scores)`
(`max`/`min` of an empty list raises, i.e. `InvalidTree`). -/
def minmaxNode : GTree → Bool → Except Err Int
  | .node _ d cs, is_max =>
    if d.is_endstate then .ok d.value
    else
      match minmaxList cs (!is_max) with
      | .error e => .error e
      | .ok [] => .error .InvalidTree
      | .ok (s :: ss) => .ok (if is_max then ss.foldl max s else ss.foldl min s)

/-- The list comprehension
`[minmax_tt(tree, child.identifier, not is_max) for child in children]`:
left to right, the first exception aborts the whole comprehension. -/
def minmaxList : List GTree → Bool → Except Err (List Int)
  | [], _ => .ok []
  | c :: cs, is_max =>
    match minmaxNode c is_max with
    | .error e => .error e
    | .ok s =>
      match minmaxList cs is_max with
      | .error e => .error e
      | .ok ss => .ok (s :: ss)

end

/-- The uncached `minmax_tt(tree, current_id, is_max)`: look the current
identifier up in the tree (`NotFound` if absent) and evaluate the subtree. -/
def minmax_tt (tree : GTree) (current_id : String) (is_max : Bool) : Except Err Int :=
  match tree.find current_id with
  | none => .error .NotFound
  | some t => minmaxNode t is_max

/-- Association-list lookup, the `key in self.memo` / `self.memo[key]`
pattern of `Memoize_tree`. -/
def lookupA {κ α : Type} [DecidableEq κ] : List (κ × α) → κ → Option α
  | [], _ => none
  | (k, v) :: rest, key => if k = key then some v else lookupA rest key

/-- A cache key: `function_call_hash = args[1:]`, i.e. the pair
(identifier, role) — the tree argument `args[0]` is skipped. -/
abbrev Key : Type := String × Bool

/-- The `self.memo` dictionary of `Memoize_tree`. -/
abbrev Memo : Type := List (Key × Int)

mutual

/-- One memoised call of the decorated `minmax_tt` at an already-found
subtree: check `function_call_hash = (identifier, role)` in the memo; on a
hit return the stored value; on a miss run the wrapped body (whose
recursive calls go through the decorator again) and store the result —
unless the body raises, in which case nothing is stored for this key. -/
def minmaxMemoNode : GTree → Bool → Memo → Except Err Int × Memo
  | .node i d cs, is_max, memo =>
    match lookupA memo (i, is_max) with
    | some v => (.ok v, memo)
    | none =>
      match
        (if d.is_endstate then ((.ok d.value : Except Err Int), memo)
         else
           match minmaxMemoList cs (!is_max) memo with
           | (.error e, m) => (.error e, m)
           | (.ok [], m) => (.error .InvalidTree, m)
           | (.ok (s :: ss), m) =>
             (.ok (if is_max then ss.foldl max s else ss.foldl min s), m)) with
      | (.error e, m) => (.error e, m)
      | (.ok v, m) => (.ok v, ((i, is_max), v) :: m)

/-- The memoised list comprehension over the children: the memo is threaded
left to right, and an exception aborts the comprehension but keeps the
entries already stored by the completed calls. -/
def minmaxMemoList : List GTree → Bool → Memo → Except Err (List Int) × Memo
  | [], _, memo => (.ok [], memo)
  | c :: cs, is_max, memo =>
    match minmaxMemoNode c is_max memo with
    | (.error e, m) => (.error e, m)
    | (.ok s, m) =>
      match minmaxMemoList cs is_max m with
      | (.error e, m2) => (.error e, m2)
      | (.ok ss, m2) => (.ok (s :: ss), m2)

end

/-- The decorated `minmax_tt(tree, current_id, is_max)`: the wrapper checks
the memo for `(current_id, is_max)` first; on a miss the wrapped function
runs `tree[current_id]` (`NotFound` aborts without storing anything) and
then the recursive body, storing the result under the key. -/
def minmax_tt_memo (tree : GTree) (current_id : String) (is_max : Bool)
    (memo : Memo) : Except Err Int × Memo :=
  match lookupA memo (current_id, is_max) with
  | some v => (.ok v, memo)
  | none =>
    match tree.find current_id with
    | none => (.error .NotFound, memo)
    | some t => minmaxMemoNode t is_max memo

/-- The selection `moves[np.where(raw_scores == target)[0]]`: the moves whose score equals
the target, in ascending index order. `random.choice` then picks uniformly
from this list. -/
def tieMoves (moves : List Char) (scores : List Int) (target : Int) : List Char :=
  (moves.zip scores).filterMap (fun p => if p.2 = target then some p.1 else none)

/-- The selector `determine_move(tree, current_id, is_max)` as run after the decoration
of `minmax_tt`: enumerate `tree.children(current_id)` (`NotFound` if the
identifier is absent), score each child via the memoised evaluator with the
flipped role, and return the list of moves (`child.identifier[-1]`) tying
for `max(raw_scores)` / `min(raw_scores)` — `max`/`min` of the empty score
array raises, i.e. `NoLegalMoves`.  The returned list is the set
`random.choice` draws from uniformly. -/
def determine_move (tree : GTree) (current_id : String) (is_max : Bool)
    (memo : Memo) : Except Err (List Char) × Memo :=
  match tree.find current_id with
  | none => (.error .NotFound, memo)
  | some t =>
    let moves := t.childrenOf.map (fun c => c.idOf.back)
    match minmaxMemoList t.childrenOf (!is_max) memo with
    | (.error e, m) => (.error e, m)
    | (.ok [], m) => (.error .NoLegalMoves, m)
    | (.ok (s :: ss), m) =>
      (.ok (tieMoves moves (s :: ss) (if is_max then ss.foldl max s else ss.foldl min s)), m)

/-- The selector `determine_move` with the uncached evaluator (the cell before the
decoration) — the reference the memoised run is compared against. -/
def determine_move_pure (tree : GTree) (current_id : String) (is_max : Bool) :
    Except Err (List Char) :=
  match tree.find current_id with
  | none => .error .NotFound
  | some t =>
    let moves := t.childrenOf.map (fun c => c.idOf.back)
    match minmaxList t.childrenOf (!is_max) with
    | .error e => .error e
    | .ok [] => .error .NoLegalMoves
    | .ok (s :: ss) =>
      .ok (tieMoves moves (s :: ss) (if is_max then ss.foldl max s else ss.foldl min s))

/-- The warm-up loop: `for state in all_states: try: determine_move(tree,
state, False) except: pass` — every exception is caught and discarded, the
memo mutated so far is kept, and the loop continues. -/
def warm_up (tree : GTree) : List String → Memo → Memo
  | [], memo => memo
  | s :: rest, memo => warm_up tree rest (determine_move tree s false memo).2

/-- The nine move symbols `['a', ..., 'i']` of the 3x3 board. -/
def moveAlphabet : List Char := ['a', 'b', 'c', 'd', 'e', 'f', 'g', 'h', 'i']

/-- Concatenation of the lists `f x` for `x` in the list. -/
def flatMapL {α β : Type} (f : α → List β) : List α → List β
  | [] => []
  | x :: xs => f x ++ flatMapL f xs

/-- All ways to pick one element out of a list, paired with the remaining
elements in their original order — the choice structure of
`itertools.permutations`. -/
def selections {α : Type} : List α → List (α × List α)
  | [] => []
  | x :: xs => (x, xs) :: (selections xs).map (fun p => (p.1, x :: p.2))

/-- The permutations `itertools.permutations(pool, r)`: all length-`r` sequences of distinct
elements of the pool. -/
def permutationsLen {α : Type} : Nat → List α → List (List α)
  | 0, _ => [[]]
  | r + 1, pool =>
    flatMapL (fun p => (permutationsLen r p.2).map (fun rest => p.1 :: rest))
      (selections pool)

/-- The warm-up candidates: `for length in range(1,9)` (i.e. lengths 1..8),
all permutations of the nine symbols of that length, joined to strings. -/
def all_states : List String :=
  flatMapL (fun len => (permutationsLen len moveAlphabet).map (fun st => String.mk st))
    (List.range' 1 8)

/-- The single-row 3-cell scenario tree: root with terminal children
`a:+1`, `b:-1`, `c:+1`. -/
def tree3 : GTree :=
  .node "root" ⟨false, 0⟩
    [.node "a" ⟨true, 1⟩ [], .node "b" ⟨true, -1⟩ [], .node "c" ⟨true, 1⟩ []]

/-- A small well-formed tree: root → "a" → "ab" (terminal draw). -/
def treeSmall : GTree :=
  .node "root" ⟨false, 0⟩ [.node "a" ⟨false, 0⟩ [.node "ab" ⟨true, 0⟩ []]]

/-- A malformed tree: "ab" is non-terminal but has no children, so the
evaluator raises `InvalidTree` on it. -/
def treeBad : GTree :=
  .node "root" ⟨false, 0⟩ [.node "a" ⟨false, 0⟩ [.node "ab" ⟨false, 0⟩ []]]

/-! ## Basic lemmas about `max`/`min` folds, lookup, and the tree search -/

theorem le_foldl_max_init : ∀ (ss : List Int) (s b : Int), b ≤ s → b ≤ ss.foldl max s := by
  intro ss
  induction ss with
  | nil => intro s b h; simpa using h
  | cons a ss ih =>
    intro s b h
    simp only [List.foldl_cons]
    exact ih (max s a) b (le_trans h (le_max_left s a))

theorem foldl_max_mem : ∀ (ss : List Int) (s : Int), ss.foldl max s ∈ s :: ss := by
  intro ss
  induction ss with
  | nil => intro s; simp
  | cons a ss ih =>
    intro s
    simp only [List.foldl_cons]
    rcases List.mem_cons.1 (ih (max s a)) with h1 | h1
    · rcases max_choice s a with h2 | h2 <;> rw [h1, h2] <;> simp
    · simp only [List.mem_cons]
      exact Or.inr (Or.inr h1)

theorem le_foldl_max : ∀ (ss : List Int) (s y : Int), y ∈ s :: ss → y ≤ ss.foldl max s := by
  intro ss
  induction ss with
  | nil => intro s y hy; simp at hy; simp [hy]
  | cons a ss ih =>
    intro s y hy
    simp only [List.foldl_cons]
    rcases List.mem_cons.1 hy with h | h
    · exact le_foldl_max_init ss (max s a) y (h ▸ le_max_left s a)
    · rcases List.mem_cons.1 h with h1 | h1
      · exact le_foldl_max_init ss (max s a) y (h1 ▸ le_max_right s a)
      · exact ih (max s a) y (List.mem_cons.2 (Or.inr h1))

theorem foldl_min_init_le : ∀ (ss : List Int) (s b : Int), s ≤ b → ss.foldl min s ≤ b := by
  intro ss
  induction ss with
  | nil => intro s b h; simpa using h
  | cons a ss ih =>
    intro s b h
    simp only [List.foldl_cons]
    exact ih (min s a) b (le_trans (min_le_left s a) h)

theorem foldl_min_mem : ∀ (ss : List Int) (s : Int), ss.foldl min s ∈ s :: ss := by
  intro ss
  induction ss with
  | nil => intro s; simp
  | cons a ss ih =>
    intro s
    simp only [List.foldl_cons]
    rcases List.mem_cons.1 (ih (min s a)) with h1 | h1
    · rcases min_choice s a with h2 | h2 <;> rw [h1, h2] <;> simp
    · simp only [List.mem_cons]
      exact Or.inr (Or.inr h1)

theorem foldl_min_le : ∀ (ss : List Int) (s y : Int), y ∈ s :: ss → ss.foldl min s ≤ y := by
  intro ss
  induction ss with
  | nil => intro s y hy; simp at hy; simp [hy]
  | cons a ss ih =>
    intro s y hy
    simp only [List.foldl_cons]
    rcases List.mem_cons.1 hy with h | h
    · exact foldl_min_init_le ss (min s a) y (h ▸ min_le_left s a)
    · rcases List.mem_cons.1 h with h1 | h1
      · exact foldl_min_init_le ss (min s a) y (h1 ▸ min_le_right s a)
      · exact ih (min s a) y (List.mem_cons.2 (Or.inr h1))

theorem lookupA_some_mem {κ α : Type} [DecidableEq κ] :
    ∀ (m : List (κ × α)) (k : κ) (v : α), lookupA m k = some v → (k, v) ∈ m := by
  intro m
  induction m with
  | nil => intro k v h; simp [lookupA] at h
  | cons p rest ih =>
    intro k v h
    obtain ⟨k', v'⟩ := p
    simp only [lookupA] at h
    by_cases hk : k' = k
    · rw [if_pos hk] at h
      subst hk
      obtain rfl := Option.some.inj h
      exact List.mem_cons_self _ _
    · rw [if_neg hk] at h
      exact List.mem_cons_of_mem _ (ih k v h)

theorem mem_subtreesL : ∀ (cs : List GTree) (u : GTree),
    u ∈ GTree.subtreesL cs ↔ ∃ c, c ∈ cs ∧ u ∈ c.subtrees := by
  intro cs
  induction cs with
  | nil => intro u; simp [GTree.subtreesL]
  | cons c cs ih =>
    intro u
    simp only [GTree.subtreesL, List.mem_append, ih, List.mem_cons]
    constructor
    · rintro (h | ⟨c', hc', hu⟩)
      · exact ⟨c, Or.inl rfl, h⟩
      · exact ⟨c', Or.inr hc', hu⟩
    · rintro ⟨c', (rfl | hc'), hu⟩
      · exact Or.inl hu
      · exact Or.inr ⟨c', hc', hu⟩

theorem self_mem_subtrees : ∀ (t : GTree), t ∈ t.subtrees := by
  intro t
  obtain ⟨i, d, cs⟩ := t
  simp [GTree.subtrees]

mutual

theorem subtrees_trans : ∀ (t c u : GTree), c ∈ t.subtrees → u ∈ c.subtrees → u ∈ t.subtrees
  | .node i d cs, c, u => by
    intro hc hu
    simp only [GTree.subtrees, List.mem_cons] at hc ⊢
    rcases hc with rfl | hc
    · simp only [GTree.subtrees, List.mem_cons] at hu
      exact hu
    · exact Or.inr (subtreesL_trans cs c u hc hu)

theorem subtreesL_trans : ∀ (cs : List GTree) (c u : GTree),
    c ∈ GTree.subtreesL cs → u ∈ c.subtrees → u ∈ GTree.subtreesL cs
  | [], c, u => by intro hc _; simp [GTree.subtreesL] at hc
  | c' :: cs', c, u => by
    intro hc hu
    simp only [GTree.subtreesL, List.mem_append] at hc ⊢
    rcases hc with hc | hc
    · exact Or.inl (subtrees_trans c' c u hc hu)
    · exact Or.inr (subtreesL_trans cs' c u hc hu)

end

theorem children_mem_subtrees : ∀ (t c : GTree), c ∈ t.childrenOf → c ∈ t.subtrees := by
  intro t c hc
  obtain ⟨i, d, cs⟩ := t
  simp only [GTree.childrenOf] at hc
  simp only [GTree.subtrees, List.mem_cons]
  exact Or.inr ((mem_subtreesL cs c).2 ⟨c, hc, self_mem_subtrees c⟩)

mutual

theorem find_some_mem : ∀ (t : GTree) (key : String) (u : GTree),
    GTree.find t key = some u → u ∈ t.subtrees ∧ u.idOf = key
  | .node i d cs, key, u => by
    intro h
    simp only [GTree.find] at h
    by_cases hik : i = key
    · rw [if_pos hik] at h
      obtain rfl := Option.some.inj h
      exact ⟨self_mem_subtrees _, by simpa [GTree.idOf] using hik⟩
    · rw [if_neg hik] at h
      have hh := findL_some_mem cs key u h
      exact ⟨List.mem_cons_of_mem _ hh.1, hh.2⟩

theorem findL_some_mem : ∀ (cs : List GTree) (key : String) (u : GTree),
    GTree.findL cs key = some u → u ∈ GTree.subtreesL cs ∧ u.idOf = key
  | [], key, u => by intro h; simp [GTree.findL] at h
  | c :: cs, key, u => by
    intro h
    simp only [GTree.findL] at h
    cases hf : GTree.find c key with
    | some t =>
      rw [hf] at h
      injection h with h2
      subst h2
      have hh := find_some_mem c key t hf
      exact ⟨by simp only [GTree.subtreesL, List.mem_append]; exact Or.inl hh.1, hh.2⟩
    | none =>
      rw [hf] at h
      have hh := findL_some_mem cs key u h
      exact ⟨by simp only [GTree.subtreesL, List.mem_append]; exact Or.inr hh.1, hh.2⟩

end

mutual

theorem mem_find_isSome : ∀ (t c : GTree), c ∈ t.subtrees →
    ∃ u, GTree.find t c.idOf = some u
  | .node i d cs, c => by
    intro hc
    simp only [GTree.find]
    by_cases hik : i = c.idOf
    · rw [if_pos hik]
      exact ⟨_, rfl⟩
    · rw [if_neg hik]
      simp only [GTree.subtrees, List.mem_cons] at hc
      rcases hc with rfl | hc
      · simp [GTree.idOf] at hik
      · exact mem_findL_isSome cs c hc

theorem mem_findL_isSome : ∀ (cs : List GTree) (c : GTree), c ∈ GTree.subtreesL cs →
    ∃ u, GTree.findL cs c.idOf = some u
  | [], c => by intro hc; simp [GTree.subtreesL] at hc
  | c' :: cs', c => by
    intro hc
    simp only [GTree.subtreesL, List.mem_append] at hc
    simp only [GTree.findL]
    rcases hc with hc | hc
    · obtain ⟨u, hu⟩ := mem_find_isSome c' c hc
      exact ⟨u, by rw [hu]⟩
    · cases hf : GTree.find c' c.idOf with
      | some t => exact ⟨t, rfl⟩
      | none => exact mem_findL_isSome cs' c hc

end

theorem unique_inj {t : GTree} (hU : t.UniqueIds) {c c' : GTree}
    (hc : c ∈ t.subtrees) (hc' : c' ∈ t.subtrees) (h : c.idOf = c'.idOf) : c = c' :=
  List.inj_on_of_nodup_map hU hc hc' h

/-! ## Validity of a memo and equivalence of the memoised evaluator -/

/-- Validity of a memo with respect to a fixed tree: every stored entry is
the correct uncached value of the (unique) node carrying the key's
identifier, evaluated at the key's role. -/
def MemoOK (root : GTree) (memo : Memo) : Prop :=
  ∀ k v, (k, v) ∈ memo →
    ∃ c, c ∈ root.subtrees ∧ c.idOf = k.1 ∧ minmaxNode c k.2 = .ok v

theorem children_in_root {root t c : GTree} (ht : t ∈ root.subtrees)
    (hc : c ∈ t.childrenOf) : c ∈ root.subtrees :=
  subtrees_trans root t c ht (children_mem_subtrees t c hc)

mutual

theorem memoNode_ok : ∀ (root : GTree), root.UniqueIds → ∀ (t : GTree),
    t ∈ root.subtrees → ∀ (r : Bool) (memo : Memo), MemoOK root memo →
    (minmaxMemoNode t r memo).1 = minmaxNode t r ∧
    MemoOK root (minmaxMemoNode t r memo).2 ∧
    (∀ k v, lookupA memo k = some v → lookupA (minmaxMemoNode t r memo).2 k = some v) ∧
    (∀ v, (minmaxMemoNode t r memo).1 = Except.ok v →
      lookupA (minmaxMemoNode t r memo).2 (t.idOf, r) = some v)
  | root, hU, .node i d cs, ht, r, memo, hm => by
    have hcs : ∀ c ∈ cs, c ∈ root.subtrees := by
      intro c hc
      exact children_in_root ht (by simpa [GTree.childrenOf] using hc)
    rcases hl : lookupA memo (i, r) with _ | v
    · -- cache miss
      rcases hd : d.is_endstate with _ | _
      · -- non-terminal: recurse into the children
        have ihL := memoList_ok root hU cs hcs (!r) memo hm
        rcases hml : minmaxMemoList cs (!r) memo with ⟨res, m⟩
        rw [hml] at ihL
        have hLeq : minmaxList cs (!r) = res := by rw [← ihL.1]
        cases res with
        | error e =>
          have heq : minmaxMemoNode (GTree.node i d cs) r memo = (.error e, m) := by
            simp [minmaxMemoNode, hl, hd, hml]
          have huneq : minmaxNode (GTree.node i d cs) r = .error e := by
            simp [minmaxNode, hd, hLeq]
          rw [heq, huneq]
          refine ⟨rfl, ihL.2.1, ihL.2.2.1, ?_⟩
          intro v hv
          exact absurd hv (by simp)
        | ok ss =>
          cases ss with
          | nil =>
            have heq : minmaxMemoNode (GTree.node i d cs) r memo =
                (.error .InvalidTree, m) := by
              simp [minmaxMemoNode, hl, hd, hml]
            have huneq : minmaxNode (GTree.node i d cs) r = .error .InvalidTree := by
              simp [minmaxNode, hd, hLeq]
            rw [heq, huneq]
            refine ⟨rfl, ihL.2.1, ihL.2.2.1, ?_⟩
            intro v hv
            exact absurd hv (by simp)
          | cons s ss =>
            have huneq : minmaxNode (GTree.node i d cs) r =
                .ok (if r then ss.foldl max s else ss.foldl min s) := by
              simp [minmaxNode, hd, hLeq]
            have heq : minmaxMemoNode (GTree.node i d cs) r memo =
                (.ok (if r then ss.foldl max s else ss.foldl min s),
                  ((i, r), if r then ss.foldl max s else ss.foldl min s) :: m) := by
              simp [minmaxMemoNode, hl, hd, hml]
            rw [heq, huneq]
            refine ⟨rfl, ?_, ?_, ?_⟩
            · -- the extended memo is still valid
              intro k v hkv
              rcases List.mem_cons.1 hkv with hkv | hkv
              · injection hkv with h1 h2
                subst h1
                subst h2
                exact ⟨GTree.node i d cs, ht, by simp [GTree.idOf], huneq⟩
              · exact ihL.2.1 k v hkv
            · -- previously stored entries are still found
              intro k v hkv
              simp only [lookupA]
              by_cases hk : ((i, r) : Key) = k
              · subst hk
                rw [hl] at hkv
                exact absurd hkv (by simp)
              · rw [if_neg hk]
                exact ihL.2.2.1 k v hkv
            · -- the key of this call is now stored
              intro v hv
              injection hv with hv
              simp [lookupA, GTree.idOf, hv]
      · -- terminal node: store the fixed value without touching the children
        have heq : minmaxMemoNode (GTree.node i d cs) r memo =
            (.ok d.value, ((i, r), d.value) :: memo) := by
          simp [minmaxMemoNode, hl, hd]
        have huneq : minmaxNode (GTree.node i d cs) r = .ok d.value := by
          simp [minmaxNode, hd]
        rw [heq, huneq]
        refine ⟨rfl, ?_, ?_, ?_⟩
        · intro k v hkv
          rcases List.mem_cons.1 hkv with hkv | hkv
          · injection hkv with h1 h2
            subst h1
            subst h2
            exact ⟨GTree.node i d cs, ht, by simp [GTree.idOf], huneq⟩
          · exact hm k v hkv
        · intro k v hkv
          simp only [lookupA]
          by_cases hk : ((i, r) : Key) = k
          · subst hk
            rw [hl] at hkv
            exact absurd hkv (by simp)
          · rw [if_neg hk]
            exact hkv
        · intro v hv
          injection hv with hv
          simp [lookupA, GTree.idOf, hv]
    · -- cache hit: the stored value is the uncached value of this node
      have hmem := lookupA_some_mem memo (i, r) v hl
      obtain ⟨c, hcsub, hcid, hcval⟩ := hm _ _ hmem
      have hceq : c = GTree.node i d cs := unique_inj hU hcsub ht (by rw [hcid]; simp [GTree.idOf])
      rw [hceq] at hcval
      have heq : minmaxMemoNode (GTree.node i d cs) r memo = (.ok v, memo) := by
        simp [minmaxMemoNode, hl]
      rw [heq]
      refine ⟨hcval.symm, hm, fun k v' h => h, ?_⟩
      intro v' hv
      injection hv with hv
      subst hv
      simpa [GTree.idOf] using hl

theorem memoList_ok : ∀ (root : GTree), root.UniqueIds → ∀ (cs : List GTree),
    (∀ c ∈ cs, c ∈ root.subtrees) → ∀ (r : Bool) (memo : Memo), MemoOK root memo →
    (minmaxMemoList cs r memo).1 = minmaxList cs r ∧
    MemoOK root (minmaxMemoList cs r memo).2 ∧
    (∀ k v, lookupA memo k = some v → lookupA (minmaxMemoList cs r memo).2 k = some v) ∧
    (∀ ss, (minmaxMemoList cs r memo).1 = Except.ok ss →
      ∀ c ∈ cs, ∃ v, minmaxNode c r = Except.ok v ∧
        lookupA (minmaxMemoList cs r memo).2 (c.idOf, r) = some v)
  | root, hU, [], hcs, r, memo, hm => by
    refine ⟨by simp [minmaxMemoList, minmaxList], by simpa [minmaxMemoList] using hm,
      fun k v h => by simpa [minmaxMemoList] using h, ?_⟩
    intro ss _ c hc
    simp at hc
  | root, hU, c :: cs, hcs, r, memo, hm => by
    have hc0 : c ∈ root.subtrees := hcs c (List.mem_cons_self c cs)
    have hcs' : ∀ c' ∈ cs, c' ∈ root.subtrees := fun c' hc' => hcs c' (List.mem_cons_of_mem c hc')
    have ihN := memoNode_ok root hU c hc0 r memo hm
    rcases hmn : minmaxMemoNode c r memo with ⟨res1, m1⟩
    rw [hmn] at ihN
    have hNeq : minmaxNode c r = res1 := by rw [← ihN.1]
    cases res1 with
    | error e =>
      have heq : minmaxMemoList (c :: cs) r memo = (.error e, m1) := by
        simp [minmaxMemoList, hmn]
      have huneq : minmaxList (c :: cs) r = .error e := by
        simp [minmaxList, hNeq]
      rw [heq, huneq]
      refine ⟨rfl, ihN.2.1, ihN.2.2.1, ?_⟩
      intro ss hss
      exact absurd hss (by simp)
    | ok s =>
      have ihL := memoList_ok root hU cs hcs' r m1 ihN.2.1
      rcases hml : minmaxMemoList cs r m1 with ⟨res2, m2⟩
      rw [hml] at ihL
      have hLeq : minmaxList cs r = res2 := by rw [← ihL.1]
      cases res2 with
      | error e =>
        have heq : minmaxMemoList (c :: cs) r memo = (.error e, m2) := by
          simp [minmaxMemoList, hmn, hml]
        have huneq : minmaxList (c :: cs) r = .error e := by
          simp [minmaxList, hNeq, hLeq]
        rw [heq, huneq]
        refine ⟨rfl, ihL.2.1, fun k v h => ihL.2.2.1 k v (ihN.2.2.1 k v h), ?_⟩
        intro ss hss
        exact absurd hss (by simp)
      | ok ss =>
        have heq : minmaxMemoList (c :: cs) r memo = (.ok (s :: ss), m2) := by
          simp [minmaxMemoList, hmn, hml]
        have huneq : minmaxList (c :: cs) r = .ok (s :: ss) := by
          simp [minmaxList, hNeq, hLeq]
        rw [heq, huneq]
        refine ⟨rfl, ihL.2.1, fun k v h => ihL.2.2.1 k v (ihN.2.2.1 k v h), ?_⟩
        intro ss' hss' c' hc'
        rcases List.mem_cons.1 hc' with rfl | hc'
        · refine ⟨s, by rw [hNeq], ?_⟩
          exact ihL.2.2.1 (c'.idOf, r) s (ihN.2.2.2 s rfl)
        · exact ihL.2.2.2 ss (by rfl) c' hc'

end

/-! ## Glue lemmas and the first claim theorems -/

theorem MemoOK_nil (root : GTree) : MemoOK root [] := by
  intro k v h
  exact absurd h (List.not_mem_nil _)

theorem tree3_unique : tree3.UniqueIds := by
  show (tree3.subtrees.map GTree.idOf).Nodup
  decide

theorem minmaxList_forall₂ : ∀ (cs : List GTree) (r : Bool) (ss : List Int),
    minmaxList cs r = .ok ss →
    List.Forall₂ (fun c sc => minmaxNode c r = Except.ok sc) cs ss := by
  intro cs r
  induction cs with
  | nil =>
    intro ss h
    simp only [minmaxList] at h
    injection h with h
    rw [← h]
    exact List.Forall₂.nil
  | cons c cs ih =>
    intro ss h
    simp only [minmaxList] at h
    cases hn : minmaxNode c r with
    | error e => rw [hn] at h; exact absurd h (by simp)
    | ok s =>
      rw [hn] at h
      cases hl : minmaxList cs r with
      | error e => rw [hl] at h; exact absurd h (by simp)
      | ok ss' =>
        rw [hl] at h
        injection h with h
        rw [← h]
        exact List.Forall₂.cons hn (ih ss' hl)

/-- C1: for every identifier present in the tree and every role, `minmax_tt`
returns the node's fixed terminal value when the node is terminal (for
either role and independently of the children, which are not enumerated);
otherwise it returns the maximum (role `Maximizing`, `is_max = true`) or
the minimum (role `Minimizing`) of the scores obtained by recursively
evaluating each child with the opposite role. -/
theorem minmax_tt_spec (tree : GTree) (current_id : String) (t : GTree) (is_max : Bool)
    (hf : tree.find current_id = some t) :
    (t.dataOf.is_endstate = true → minmax_tt tree current_id is_max = .ok t.dataOf.value) ∧
    (t.dataOf.is_endstate = true → ∀ i cs,
      minmaxNode (GTree.node i t.dataOf cs) is_max = .ok t.dataOf.value) ∧
    (t.dataOf.is_endstate = false → ∀ s ss,
      minmaxList t.childrenOf (!is_max) = .ok (s :: ss) →
      List.Forall₂ (fun c sc => minmaxNode c (!is_max) = Except.ok sc) t.childrenOf (s :: ss) ∧
      ∃ v, minmax_tt tree current_id is_max = .ok v ∧ v ∈ (s :: ss) ∧
        ∀ y ∈ (s :: ss), (if is_max then y ≤ v else v ≤ y)) := by
  obtain ⟨i, d, cs⟩ := t
  simp only [GTree.dataOf, GTree.childrenOf]
  refine ⟨?_, ?_, ?_⟩
  · intro hd
    simp [minmax_tt, hf, minmaxNode, hd]
  · intro hd i' cs'
    simp [minmaxNode, hd]
  · intro hd s ss hsc
    refine ⟨minmaxList_forall₂ cs (!is_max) (s :: ss) hsc, ?_⟩
    refine ⟨if is_max then ss.foldl max s else ss.foldl min s, ?_, ?_, ?_⟩
    · simp [minmax_tt, hf, minmaxNode, hd, hsc]
    · cases is_max with
      | false => simpa using foldl_min_mem ss s
      | true => simpa using foldl_max_mem ss s
    · intro y hy
      cases is_max with
      | false => simpa using foldl_min_le ss s y hy
      | true => simpa using le_foldl_max ss s y hy

theorem minmax_tt_spec_witness :
    minmax_tt tree3 "a" false = .ok 1 ∧
    (∃ v, minmax_tt tree3 "root" true = .ok v ∧ v ∈ ([1, -1, 1] : List Int) ∧
      ∀ y ∈ ([1, -1, 1] : List Int), y ≤ v) := by
  constructor
  · exact (minmax_tt_spec tree3 "a" (GTree.node "a" ⟨true, 1⟩ []) false rfl).1 rfl
  · obtain ⟨-, v, hv, hmem, hle⟩ :=
      (minmax_tt_spec tree3 "root" tree3 true rfl).2.2 rfl 1 [-1, 1] rfl
    exact ⟨v, hv, hmem, fun y hy => by simpa using hle y hy⟩

/-- C2: over any tree with unique identifiers, with any session memo built
up so far (any valid memo, the empty one of a fresh session included), the
cache-wrapped evaluator returns exactly the same answer as the uncached
recursive evaluator on the same identifier and role, and leaves the memo
valid — memoization changes no returned value. -/
theorem minmax_memo_transparent (tree : GTree) (hU : tree.UniqueIds)
    (current_id : String) (is_max : Bool) (memo : Memo) (hm : MemoOK tree memo) :
    (minmax_tt_memo tree current_id is_max memo).1 = minmax_tt tree current_id is_max ∧
    MemoOK tree (minmax_tt_memo tree current_id is_max memo).2 := by
  rcases hl : lookupA memo (current_id, is_max) with _ | v
  · rcases hf : tree.find current_id with _ | t
    · have heq : minmax_tt_memo tree current_id is_max memo = (.error .NotFound, memo) := by
        simp [minmax_tt_memo, hl, hf]
      have huneq : minmax_tt tree current_id is_max = .error .NotFound := by
        simp [minmax_tt, hf]
      rw [heq, huneq]
      exact ⟨rfl, hm⟩
    · have heq : minmax_tt_memo tree current_id is_max memo = minmaxMemoNode t is_max memo := by
        simp [minmax_tt_memo, hl, hf]
      have huneq : minmax_tt tree current_id is_max = minmaxNode t is_max := by
        simp [minmax_tt, hf]
      rw [heq, huneq]
      have h := memoNode_ok tree hU t (find_some_mem tree current_id t hf).1 is_max memo hm
      exact ⟨h.1, h.2.1⟩
  · have hmem := lookupA_some_mem memo _ v hl
    obtain ⟨c, hcsub, hcid, hcval⟩ := hm _ _ hmem
    have heq : minmax_tt_memo tree current_id is_max memo = (.ok v, memo) := by
      simp [minmax_tt_memo, hl]
    rcases hf : tree.find current_id with _ | t
    · obtain ⟨u, hu⟩ := mem_find_isSome tree c hcsub
      rw [hcid] at hu
      rw [hf] at hu
      exact absurd hu (by simp)
    · have htm := find_some_mem tree current_id t hf
      have hct : c = t := unique_inj hU hcsub htm.1 (by rw [hcid, htm.2])
      rw [hct] at hcval
      have huneq : minmax_tt tree current_id is_max = .ok v := by
        simp [minmax_tt, hf]
        exact hcval
      rw [heq, huneq]
      exact ⟨rfl, hm⟩

theorem minmax_memo_transparent_witness :
    tree3.UniqueIds ∧ MemoOK tree3 [] ∧
    (minmax_tt_memo tree3 "root" true []).1 = minmax_tt tree3 "root" true :=
  ⟨tree3_unique, MemoOK_nil tree3,
    (minmax_memo_transparent tree3 tree3_unique "root" true [] (MemoOK_nil tree3)).1⟩

/-! ## The `Memoize_tree.__call__` wrapper in isolation -/

/-- The wrapper `Memoize_tree.__call__` with a pure wrapped function: on a hit return
the stored value (0 invocations of `self.fn`); on a miss invoke `self.fn`
once, store the result under the key, and return it.  The third component
counts the invocations of the wrapped function in this call. -/
def Memoize_call {κ α : Type} [DecidableEq κ] (fn : κ → α) (memo : List (κ × α))
    (k : κ) : α × List (κ × α) × Nat :=
  match lookupA memo k with
  | some v => (v, memo, 0)
  | none => (fn k, (k, fn k) :: memo, 1)

/-- A session: a sequence of calls through the same `Memoize_tree`
instance, threading `self.memo`.  Returns the final memo, the list of
returned values, and the list of keys on which the wrapped function was
actually invoked. -/
def Memoize_session {κ α : Type} [DecidableEq κ] (fn : κ → α) :
    List κ → List (κ × α) → List (κ × α) × List α × List κ
  | [], memo => (memo, [], [])
  | k :: ks, memo =>
    let r := Memoize_call fn memo k
    let rest := Memoize_session fn ks r.2.1
    (rest.1, r.1 :: rest.2.1, (if r.2.2 = 1 then [k] else []) ++ rest.2.2)

theorem Memoize_session_inv {κ α : Type} [DecidableEq κ] (fn : κ → α) :
    ∀ (ks : List κ) (memo : List (κ × α)),
    (∀ p ∈ memo, p.2 = fn p.1) →
    (Memoize_session fn ks memo).2.1 = ks.map fn ∧
    (∀ p ∈ (Memoize_session fn ks memo).1, p.2 = fn p.1) ∧
    (Memoize_session fn ks memo).2.2.Nodup ∧
    (∀ k ∈ (Memoize_session fn ks memo).2.2, lookupA memo k = none) := by
  intro ks
  induction ks with
  | nil =>
    intro memo hmemo
    refine ⟨rfl, hmemo, List.nodup_nil, ?_⟩
    intro k hk
    exact absurd hk (List.not_mem_nil _)
  | cons k ks ih =>
    intro memo hmemo
    rcases hl : lookupA memo k with _ | v
    · -- miss: fn is invoked and the result stored
      have hmemo' : ∀ p ∈ (k, fn k) :: memo, p.2 = fn p.1 := by
        intro p hp
        rcases List.mem_cons.1 hp with rfl | hp
        · rfl
        · exact hmemo p hp
      have h := ih ((k, fn k) :: memo) hmemo'
      have heq : Memoize_session fn (k :: ks) memo =
          ((Memoize_session fn ks ((k, fn k) :: memo)).1,
            fn k :: (Memoize_session fn ks ((k, fn k) :: memo)).2.1,
            k :: (Memoize_session fn ks ((k, fn k) :: memo)).2.2) := by
        simp [Memoize_session, Memoize_call, hl]
      rw [heq]
      have hknotin : k ∉ (Memoize_session fn ks ((k, fn k) :: memo)).2.2 := by
        intro hk
        have := h.2.2.2 k hk
        simp [lookupA] at this
      refine ⟨by rw [h.1]; rfl, h.2.1, List.nodup_cons.2 ⟨hknotin, h.2.2.1⟩, ?_⟩
      intro k' hk'
      rcases List.mem_cons.1 hk' with rfl | hk'
      · exact hl
      · have := h.2.2.2 k' hk'
        simp only [lookupA] at this
        by_cases hkk : k = k'
        · rw [if_pos hkk] at this
          exact absurd this (by simp)
        · rwa [if_neg hkk] at this
    · -- hit: the stored value is returned, fn is not invoked
      have hv : v = fn k := hmemo (k, v) (lookupA_some_mem memo k v hl)
      have h := ih memo hmemo
      have heq : Memoize_session fn (k :: ks) memo =
          ((Memoize_session fn ks memo).1,
            v :: (Memoize_session fn ks memo).2.1,
            (Memoize_session fn ks memo).2.2) := by
        simp [Memoize_session, Memoize_call, hl]
      rw [heq]
      exact ⟨by rw [h.1, hv]; rfl, h.2.1, h.2.2.1, h.2.2.2⟩

/-- C3: on a hit `Memoize_tree.__call__` returns the stored value without
invoking the wrapped function and leaves the memo unchanged; on a miss it
invokes the wrapped function exactly once, stores the result under the
key, and returns it; and across any sequence of calls of a session started
with an empty memo, the wrapped function is invoked at most once per
distinct key and every call returns the (identical) value of the wrapped
function at its key. -/
theorem memoize_at_most_once {κ α : Type} [DecidableEq κ] (fn : κ → α)
    (memo : List (κ × α)) (k : κ) :
    (∀ v, lookupA memo k = some v → Memoize_call fn memo k = (v, memo, 0)) ∧
    (lookupA memo k = none → Memoize_call fn memo k = (fn k, (k, fn k) :: memo, 1)) ∧
    (∀ ks : List κ, (Memoize_session fn ks []).2.1 = ks.map fn ∧
      (Memoize_session fn ks []).2.2.Nodup) := by
  refine ⟨?_, ?_, ?_⟩
  · intro v hl
    simp [Memoize_call, hl]
  · intro hl
    simp [Memoize_call, hl]
  · intro ks
    have h := Memoize_session_inv fn ks [] (by intro p hp; exact absurd hp (List.not_mem_nil _))
    exact ⟨h.1, h.2.2.1⟩

theorem memoize_at_most_once_witness :
    Memoize_call (fun n : Nat => n * 2) [(0, 0)] 0 = (0, [(0, 0)], 0) ∧
    Memoize_call (fun n : Nat => n * 2) [] 1 = (2, [(1, 2)], 1) ∧
    (Memoize_session (fun n : Nat => n * 2) [0, 1, 0] []).2.1 = [0, 2, 0] ∧
    (Memoize_session (fun n : Nat => n * 2) [0, 1, 0] []).2.2.Nodup := by
  refine ⟨(memoize_at_most_once _ [(0, 0)] 0).1 0 rfl,
    (memoize_at_most_once _ [] 1).2.1 rfl, ?_,
    ((memoize_at_most_once (fun n : Nat => n * 2) [] 0).2.2 [0, 1, 0]).2⟩
  have h := ((memoize_at_most_once (fun n : Nat => n * 2) [] 0).2.2 [0, 1, 0]).1
  simpa using h

/-- The wrapper `Memoize_tree.__call__` with a wrapped function that can raise: the
assignment `self.memo[hash] = self.fn(*args)` evaluates its right-hand
side first, so if `self.fn` raises, nothing is assigned and the exception
propagates with the memo untouched. -/
def Memoize_call_exc {κ α ε : Type} [DecidableEq κ] (fn : κ → Except ε α)
    (memo : List (κ × α)) (k : κ) : Except ε α × List (κ × α) × Nat :=
  match lookupA memo k with
  | some v => (.ok v, memo, 0)
  | none =>
    match fn k with
    | .error e => (.error e, memo, 1)
    | .ok v => (.ok v, (k, v) :: memo, 1)

/-- C10: if the wrapped function raises on a cache miss, no entry is
stored for the key and the memo is exactly the memo from before the failed
call (errors are never memoized); a later call with the same key invokes
the wrapped function again. -/
theorem memoize_no_entry_on_error {κ α ε : Type} [DecidableEq κ]
    (fn : κ → Except ε α) (memo : List (κ × α)) (k : κ) (e : ε)
    (hl : lookupA memo k = none) (hf : fn k = .error e) :
    Memoize_call_exc fn memo k = (.error e, memo, 1) ∧
    (Memoize_call_exc fn (Memoize_call_exc fn memo k).2.1 k).2.2 = 1 := by
  have heq : Memoize_call_exc fn memo k = (.error e, memo, 1) := by
    simp [Memoize_call_exc, hl, hf]
  refine ⟨heq, ?_⟩
  rw [heq]
  simp [Memoize_call_exc, hl, hf]

theorem memoize_no_entry_on_error_witness :
    Memoize_call_exc (fun _ : Nat => (Except.error () : Except Unit Nat)) [] 0 =
      (.error (), [], 1) ∧
    (Memoize_call_exc (fun _ : Nat => (Except.error () : Except Unit Nat))
      (Memoize_call_exc (fun _ : Nat => (Except.error () : Except Unit Nat)) [] 0).2.1
      0).2.2 = 1 :=
  memoize_no_entry_on_error _ [] 0 () rfl rfl

/-- C4: the cache key is exactly the pair (identifier, role) and excludes
the tree: a stored entry answers a call made with *any* tree, unchanged;
the keys `(id, Maximizing)` and `(id, Minimizing)` are distinct; and on
the concrete scenario tree the two roles produce two separate entries for
the root identifier, holding the independently computed values `+1`
(maximizing) and `-1` (minimizing). -/
theorem cache_key_excludes_tree :
    (∀ (tree tree' : GTree) (memo : Memo) (current_id : String) (is_max : Bool) (v : Int),
      lookupA memo (current_id, is_max) = some v →
      minmax_tt_memo tree current_id is_max memo = (.ok v, memo) ∧
      minmax_tt_memo tree' current_id is_max memo = (.ok v, memo)) ∧
    (∀ current_id : String, ((current_id, true) : Key) ≠ (current_id, false)) ∧
    (lookupA (minmax_tt_memo tree3 "root" true []).2 ("root", true) = some 1 ∧
      lookupA (minmax_tt_memo tree3 "root" true []).2 ("root", false) = none ∧
      lookupA (minmax_tt_memo tree3 "root" false
        (minmax_tt_memo tree3 "root" true []).2).2 ("root", false) = some (-1) ∧
      lookupA (minmax_tt_memo tree3 "root" false
        (minmax_tt_memo tree3 "root" true []).2).2 ("root", true) = some 1) := by
  refine ⟨?_, ?_, rfl, rfl, rfl, rfl⟩
  · intro tree tree' memo current_id is_max v hl
    constructor <;> simp [minmax_tt_memo, hl]
  · intro current_id h
    have := congrArg Prod.snd h
    simp at this

theorem cache_key_excludes_tree_witness :
    minmax_tt_memo tree3 "zz" true [(("zz", true), 7)] = (.ok 7, [(("zz", true), 7)]) ∧
    minmax_tt_memo treeSmall "zz" true [(("zz", true), 7)] = (.ok 7, [(("zz", true), 7)]) :=
  cache_key_excludes_tree.1 tree3 treeSmall [(("zz", true), 7)] "zz" true 7 rfl

/-- C9: `determine_move` on an identifier that is present in the tree but
has zero children fails with `NoLegalMoves` (taking the `max`/`min` of the
empty score array raises) and leaves the memo unchanged. -/
theorem determine_move_no_children (tree : GTree) (current_id : String) (t : GTree)
    (is_max : Bool) (memo : Memo) (hf : tree.find current_id = some t)
    (hc : t.childrenOf = []) :
    determine_move tree current_id is_max memo = (.error .NoLegalMoves, memo) := by
  simp [determine_move, hf, hc, minmaxMemoList]

theorem determine_move_no_children_witness :
    determine_move tree3 "a" false [] = (.error .NoLegalMoves, []) :=
  determine_move_no_children tree3 "a" (GTree.node "a" ⟨true, 1⟩ []) false [] rfl rfl

/-! ## The move selector -/

theorem tieMoves_mem (f : GTree → Char) :
    ∀ (cs : List GTree) (r : Bool) (ss : List Int), minmaxList cs r = .ok ss →
    ∀ (x : Int) (mv : Char),
      mv ∈ tieMoves (cs.map f) ss x ↔
        ∃ c ∈ cs, f c = mv ∧ minmaxNode c r = .ok x := by
  intro cs r
  induction cs with
  | nil =>
    intro ss h x mv
    simp only [minmaxList] at h
    injection h with h
    rw [← h]
    simp [tieMoves]
  | cons c cs ih =>
    intro ss h x mv
    simp only [minmaxList] at h
    cases hn : minmaxNode c r with
    | error e => rw [hn] at h; exact absurd h (by simp)
    | ok s =>
      rw [hn] at h
      cases hl : minmaxList cs r with
      | error e => rw [hl] at h; exact absurd h (by simp)
      | ok ss' =>
        rw [hl] at h
        injection h with h
        rw [← h]
        have hrest := ih ss' hl x mv
        simp only [List.map_cons]
        by_cases hs : s = x
        · subst hs
          have hcons : tieMoves (f c :: List.map f cs) (s :: ss') s =
              f c :: tieMoves (List.map f cs) ss' s := by
            simp [tieMoves]
          rw [hcons]
          simp only [List.mem_cons]
          constructor
          · rintro (rfl | hmv)
            · exact ⟨c, Or.inl rfl, rfl, hn⟩
            · obtain ⟨c', hc', hfc', hval⟩ := hrest.1 hmv
              exact ⟨c', Or.inr hc', hfc', hval⟩
          · rintro ⟨c', rfl | hc', hfc', hval⟩
            · exact Or.inl hfc'.symm
            · exact Or.inr (hrest.2 ⟨c', hc', hfc', hval⟩)
        · have hcons : tieMoves (f c :: List.map f cs) (s :: ss') x =
              tieMoves (List.map f cs) ss' x := by
            simp [tieMoves, hs]
          rw [hcons, hrest]
          constructor
          · rintro ⟨c', hc', hfc', hval⟩
            exact ⟨c', List.mem_cons_of_mem c hc', hfc', hval⟩
          · rintro ⟨c', hc', hfc', hval⟩
            rcases List.mem_cons.1 hc' with rfl | hc'
            · rw [hn] at hval
              injection hval with hval
              exact absurd hval hs
            · exact ⟨c', hc', hfc', hval⟩

/-- C5: for every position with at least one child, `determine_move`
scores each child with the opposite role, computes the extremal value
(`max(raw_scores)` if maximizing, `min(raw_scores)` otherwise), and
returns exactly the tie set — the final symbols of the children whose
score equals the extremal value (exact integer equality) — from which
`random.choice` selects uniformly; and in the three-child scenario with
terminal values `a:+1, b:-1, c:+1` and role `Maximizing` the returned set
is `['a', 'c']`, so `a` and `c` each have non-zero probability and `b` is
never returned. -/
theorem determine_move_extremal :
    (∀ (tree : GTree), tree.UniqueIds → ∀ (current_id : String) (t : GTree)
      (is_max : Bool) (memo : Memo), MemoOK tree memo →
      tree.find current_id = some t →
      ∀ s ss, minmaxList t.childrenOf (!is_max) = .ok (s :: ss) →
      ∃ l, (determine_move tree current_id is_max memo).1 = .ok l ∧
        (∀ mv, mv ∈ l ↔ ∃ c ∈ t.childrenOf, c.idOf.back = mv ∧
          minmaxNode c (!is_max) = .ok (if is_max then ss.foldl max s else ss.foldl min s)) ∧
        (if is_max then ss.foldl max s else ss.foldl min s) ∈ (s :: ss) ∧
        (∀ y ∈ (s :: ss),
          if is_max then y ≤ ss.foldl max s else ss.foldl min s ≤ y)) ∧
    ((determine_move tree3 "root" true []).1 = .ok ['a', 'c'] ∧
      'a' ∈ (['a', 'c'] : List Char) ∧ 'c' ∈ (['a', 'c'] : List Char) ∧
      'b' ∉ (['a', 'c'] : List Char)) := by
  constructor
  · intro tree hU current_id t is_max memo hm hf s ss hsc
    have ht := (find_some_mem tree current_id t hf).1
    have hcs : ∀ c ∈ t.childrenOf, c ∈ tree.subtrees := by
      intro c hc
      exact children_in_root ht hc
    have hL := memoList_ok tree hU t.childrenOf hcs (!is_max) memo hm
    rcases hmm : minmaxMemoList t.childrenOf (!is_max) memo with ⟨res, m⟩
    rw [hmm] at hL
    have hres : res = .ok (s :: ss) := by
      have := hL.1
      simp only at this
      rw [this, hsc]
    subst hres
    refine ⟨tieMoves (t.childrenOf.map (fun c => c.idOf.back)) (s :: ss)
      (if is_max then ss.foldl max s else ss.foldl min s), ?_, ?_, ?_, ?_⟩
    · simp [determine_move, hf, hmm]
    · intro mv
      exact tieMoves_mem (fun c => c.idOf.back) t.childrenOf (!is_max) (s :: ss) hsc
        (if is_max then ss.foldl max s else ss.foldl min s) mv
    · cases is_max with
      | false => simpa using foldl_min_mem ss s
      | true => simpa using foldl_max_mem ss s
    · intro y hy
      cases is_max with
      | false => simpa using foldl_min_le ss s y hy
      | true => simpa using le_foldl_max ss s y hy
  · exact ⟨rfl, by decide, by decide, by decide⟩

theorem determine_move_extremal_witness :
    ∃ l, (determine_move tree3 "root" false []).1 = .ok l ∧
      (∀ mv, mv ∈ l ↔ ∃ c ∈ tree3.childrenOf, c.idOf.back = mv ∧
        minmaxNode c (!false) =
          .ok (if false then ([-1, 1] : List Int).foldl max 1
               else ([-1, 1] : List Int).foldl min 1)) ∧
      (if false then ([-1, 1] : List Int).foldl max 1
       else ([-1, 1] : List Int).foldl min 1) ∈ (1 :: [-1, 1] : List Int) ∧
      (∀ y ∈ (1 :: [-1, 1] : List Int),
        if false then y ≤ ([-1, 1] : List Int).foldl max 1
        else ([-1, 1] : List Int).foldl min 1 ≤ y) :=
  determine_move_extremal.1 tree3 tree3_unique "root" tree3 false []
    (MemoOK_nil tree3) rfl 1 [-1, 1] rfl

/-! ## The warm-up candidate generation -/

theorem mem_flatMapL {α β : Type} (f : α → List β) :
    ∀ (l : List α) (b : β), b ∈ flatMapL f l ↔ ∃ a ∈ l, b ∈ f a := by
  intro l
  induction l with
  | nil => intro b; simp [flatMapL]
  | cons x xs ih =>
    intro b
    simp only [flatMapL, List.mem_append, ih b]
    constructor
    · rintro (h | ⟨a, ha, hb⟩)
      · exact ⟨x, List.mem_cons_self x xs, h⟩
      · exact ⟨a, List.mem_cons_of_mem x ha, hb⟩
    · rintro ⟨a, ha, hb⟩
      rcases List.mem_cons.1 ha with rfl | ha
      · exact Or.inl hb
      · exact Or.inr ⟨a, ha, hb⟩

theorem selections_iff {α : Type} : ∀ (pool : List α) (x : α) (rest : List α),
    (x, rest) ∈ selections pool ↔ ∃ a b, pool = a ++ x :: b ∧ rest = a ++ b := by
  intro pool
  induction pool with
  | nil =>
    intro x rest
    simp only [selections, List.not_mem_nil, false_iff]
    rintro ⟨a, b, hab, -⟩
    cases a <;> simp at hab
  | cons y ys ih =>
    intro x rest
    simp only [selections, List.mem_cons, List.mem_map]
    constructor
    · rintro (h | ⟨⟨p1, p2⟩, hp, hpe⟩)
      · injection h with h1 h2
        exact ⟨[], ys, by rw [h1, List.nil_append], by rw [h2, List.nil_append]⟩
      · injection hpe with h1 h2
        subst h1
        obtain ⟨a, b, hab, hr⟩ := (ih p1 p2).1 hp
        refine ⟨y :: a, b, by rw [hab]; rfl, ?_⟩
        rw [← h2, hr]
        rfl
    · rintro ⟨a, b, hab, hr⟩
      cases a with
      | nil =>
        simp only [List.nil_append] at hab hr
        injection hab with h1 h2
        subst h1
        subst h2
        exact Or.inl (by rw [hr])
      | cons a0 as =>
        injection hab with h1 h2
        subst h1
        refine Or.inr ⟨(x, as ++ b), (ih x (as ++ b)).2 ⟨as, b, h2, rfl⟩, ?_⟩
        rw [hr]
        rfl

theorem mem_permutationsLen {α : Type} : ∀ (r : Nat) (pool l : List α),
    l ∈ permutationsLen r pool ↔ l.length = r ∧ l.Subperm pool := by
  intro r
  induction r with
  | zero =>
    intro pool l
    simp only [permutationsLen, List.mem_singleton]
    constructor
    · rintro rfl
      exact ⟨rfl, List.nil_subperm⟩
    · rintro ⟨hl, -⟩
      exact List.length_eq_zero.1 hl
  | succ r ih =>
    intro pool l
    rw [show permutationsLen (r + 1) pool =
      flatMapL (fun p => (permutationsLen r p.2).map (fun rest => p.1 :: rest))
        (selections pool) from rfl]
    rw [mem_flatMapL]
    constructor
    · rintro ⟨⟨x, rest⟩, hp, hl⟩
      obtain ⟨t, ht, rfl⟩ := List.mem_map.1 hl
      obtain ⟨htlen, htsub⟩ := (ih rest t).1 ht
      obtain ⟨a, b, rfl, rfl⟩ := (selections_iff pool x rest).1 hp
      refine ⟨by simp [htlen], ?_⟩
      have h1 : (x :: t).Subperm (x :: (a ++ b)) := (List.subperm_cons x).2 htsub
      exact h1.trans List.perm_middle.symm.subperm
    · rintro ⟨hlen, hsub⟩
      cases l with
      | nil => simp at hlen
      | cons x t =>
        have hx : x ∈ pool := hsub.subset (List.mem_cons_self x t)
        obtain ⟨a, b, rfl⟩ := List.append_of_mem hx
        have hsub' : (x :: t).Subperm (x :: (a ++ b)) := hsub.trans List.perm_middle.subperm
        have htsub : t.Subperm (a ++ b) := (List.subperm_cons x).1 hsub'
        have ht : t ∈ permutationsLen r (a ++ b) :=
          (ih (a ++ b) t).2 ⟨by simpa using hlen, htsub⟩
        exact ⟨(x, a ++ b), (selections_iff _ x _).2 ⟨a, b, rfl, rfl⟩,
          List.mem_map.2 ⟨t, ht, rfl⟩⟩

theorem all_states_iff : ∀ s : String, s ∈ all_states ↔
    1 ≤ s.length ∧ s.length ≤ 8 ∧ s.toList.Subperm moveAlphabet := by
  intro s
  rw [show all_states =
    flatMapL (fun len => (permutationsLen len moveAlphabet).map (fun st => String.mk st))
      (List.range' 1 8) from rfl]
  rw [mem_flatMapL]
  constructor
  · rintro ⟨len, hlen, hs⟩
    obtain ⟨l, hl, rfl⟩ := List.mem_map.1 hs
    obtain ⟨hllen, hlsub⟩ := (mem_permutationsLen len moveAlphabet l).1 hl
    have hrange : 1 ≤ len ∧ len < 1 + 8 := List.mem_range'_1.1 hlen
    have hlength : (String.mk l).length = l.length := rfl
    refine ⟨by rw [hlength, hllen]; exact hrange.1, by rw [hlength, hllen]; omega, ?_⟩
    exact hlsub
  · rintro ⟨h1, h2, h3⟩
    refine ⟨s.length, List.mem_range'_1.2 ⟨h1, by omega⟩, List.mem_map.2 ⟨s.toList, ?_, rfl⟩⟩
    exact (mem_permutationsLen s.length moveAlphabet s.toList).2 ⟨rfl, h3⟩

/-- C7 counterexample: the claim says the driver generates all permutations
of lengths 1 through 9, but the full-board permutation `"abcdefghi"` — of
length 9 and consisting of exactly the nine move symbols — is not among the
generated candidates (`range(1,9)` stops at length 8). -/
theorem all_states_misses_length_nine :
    ("abcdefghi" : String) ∉ all_states ∧
    ("abcdefghi" : String).length = 9 ∧
    ("abcdefghi" : String).toList = moveAlphabet := by
  refine ⟨?_, rfl, rfl⟩
  intro h
  obtain ⟨-, h8, -⟩ := (all_states_iff _).1 h
  have h9 : ("abcdefghi" : String).length = 9 := rfl
  omega

/-- C7 amended: the warm-up driver generates, as candidate identifiers,
exactly the permutations of the nine move symbols of every length from 1
up to 8 (`range(1,9)` excludes the full-board length 9), and attempts
`determine_move` on each candidate with the fixed role `False`
(minimizing), threading the memo through regardless of the outcome. -/
theorem all_states_lengths_one_to_eight :
    (∀ s : String, s ∈ all_states ↔
      1 ≤ s.length ∧ s.length ≤ 8 ∧ s.toList.Subperm moveAlphabet) ∧
    (∀ (tree : GTree) (s : String) (rest : List String) (memo : Memo),
      warm_up tree (s :: rest) memo =
        warm_up tree rest (determine_move tree s false memo).2) :=
  ⟨all_states_iff, fun _ _ _ _ => rfl⟩

theorem all_states_lengths_one_to_eight_witness :
    "ab" ∈ all_states ↔ 1 ≤ ("ab" : String).length ∧ ("ab" : String).length ≤ 8 ∧
      ("ab" : String).toList.Subperm moveAlphabet :=
  all_states_lengths_one_to_eight.1 "ab"

/-! ## The warm-up driver -/

theorem determine_move_notfound (tree : GTree) (s : String) (is_max : Bool)
    (memo : Memo) (hf : tree.find s = none) :
    determine_move tree s is_max memo = (.error .NotFound, memo) := by
  simp [determine_move, hf]

theorem determine_move_memo_ok (tree : GTree) (hU : tree.UniqueIds)
    (current_id : String) (is_max : Bool) (memo : Memo) (hm : MemoOK tree memo) :
    (determine_move tree current_id is_max memo).1 =
      determine_move_pure tree current_id is_max ∧
    MemoOK tree (determine_move tree current_id is_max memo).2 ∧
    (∀ k v, lookupA memo k = some v →
      lookupA (determine_move tree current_id is_max memo).2 k = some v) ∧
    (∀ t, tree.find current_id = some t → ∀ l,
      (determine_move tree current_id is_max memo).1 = .ok l →
      ∀ c ∈ t.childrenOf, ∃ v, minmaxNode c (!is_max) = .ok v ∧
        lookupA (determine_move tree current_id is_max memo).2 (c.idOf, !is_max) = some v) := by
  rcases hf : tree.find current_id with _ | t
  · rw [determine_move_notfound tree current_id is_max memo hf]
    refine ⟨by simp [determine_move_pure, hf], hm, fun k v h => h, ?_⟩
    intro t ht
    exact absurd ht (by simp)
  · have ht := (find_some_mem tree current_id t hf).1
    have hcs : ∀ c ∈ t.childrenOf, c ∈ tree.subtrees := fun c hc => children_in_root ht hc
    have hL := memoList_ok tree hU t.childrenOf hcs (!is_max) memo hm
    rcases hmm : minmaxMemoList t.childrenOf (!is_max) memo with ⟨res, m⟩
    rw [hmm] at hL
    have hLeq : minmaxList t.childrenOf (!is_max) = res := by rw [← hL.1]
    cases res with
    | error e =>
      have heq : determine_move tree current_id is_max memo = (.error e, m) := by
        simp [determine_move, hf, hmm]
      have hpeq : determine_move_pure tree current_id is_max = .error e := by
        simp [determine_move_pure, hf, hLeq]
      rw [heq, hpeq]
      refine ⟨rfl, hL.2.1, hL.2.2.1, ?_⟩
      intro t' ht' l hl
      exact absurd hl (by simp)
    | ok ss =>
      cases ss with
      | nil =>
        have heq : determine_move tree current_id is_max memo = (.error .NoLegalMoves, m) := by
          simp [determine_move, hf, hmm]
        have hpeq : determine_move_pure tree current_id is_max = .error .NoLegalMoves := by
          simp [determine_move_pure, hf, hLeq]
        rw [heq, hpeq]
        refine ⟨rfl, hL.2.1, hL.2.2.1, ?_⟩
        intro t' ht' l hl
        exact absurd hl (by simp)
      | cons s ss =>
        have heq : determine_move tree current_id is_max memo =
            (.ok (tieMoves (t.childrenOf.map (fun c => c.idOf.back)) (s :: ss)
              (if is_max then ss.foldl max s else ss.foldl min s)), m) := by
          simp [determine_move, hf, hmm]
        have hpeq : determine_move_pure tree current_id is_max =
            .ok (tieMoves (t.childrenOf.map (fun c => c.idOf.back)) (s :: ss)
              (if is_max then ss.foldl max s else ss.foldl min s)) := by
          simp [determine_move_pure, hf, hLeq]
        rw [heq, hpeq]
        refine ⟨rfl, hL.2.1, hL.2.2.1, ?_⟩
        intro t' ht' l hl
        injection ht' with ht'
        subst ht'
        intro c hc
        exact hL.2.2.2 (s :: ss) rfl c hc

theorem warm_up_inv (tree : GTree) (P : Memo → Prop) :
    ∀ (states : List String),
    (∀ s ∈ states, ∀ m, P m → P ((determine_move tree s false m).2)) →
    ∀ memo, P memo → P (warm_up tree states memo) := by
  intro states
  induction states with
  | nil => intro _ memo hP; exact hP
  | cons s rest ih =>
    intro hstep memo hP
    exact ih (fun s' hs' => hstep s' (List.mem_cons_of_mem s hs'))
      (determine_move tree s false memo).2
      (hstep s (List.mem_cons_self s rest) memo hP)

theorem warm_up_preserves (tree : GTree) (hU : tree.UniqueIds) :
    ∀ (states : List String) (memo : Memo), MemoOK tree memo →
    MemoOK tree (warm_up tree states memo) ∧
    (∀ k v, lookupA memo k = some v → lookupA (warm_up tree states memo) k = some v) := by
  intro states
  induction states with
  | nil => intro memo hm; exact ⟨hm, fun k v h => h⟩
  | cons s rest ih =>
    intro memo hm
    have hstep := determine_move_memo_ok tree hU s false memo hm
    have h := ih (determine_move tree s false memo).2 hstep.2.1
    exact ⟨h.1, fun k v hkv => h.2 k v (hstep.2.2.1 k v hkv)⟩

/-- C6 amended: after the warm-up driver finishes, every *child* of every
warm-up candidate on which `determine_move` succeeds has a cache entry —
for the role *opposite* to the warm-up role, since `determine_move(state,
role)` evaluates the children with the flipped role and caches only them
and their descendants, never the queried state itself.  In particular the
root and the length-1 positions, which are children of no candidate, get
no entry, and no entry is created for the warm-up role `False` at the
candidates themselves (see the counterexample). -/
theorem warm_up_covers_children (tree : GTree) (hU : tree.UniqueIds)
    (states : List String) (s : String) (hs : s ∈ states) (t : GTree)
    (hf : tree.find s = some t) (l : List Char)
    (hok : determine_move_pure tree s false = .ok l) :
    ∀ c ∈ t.childrenOf, ∃ v, minmaxNode c true = .ok v ∧
      lookupA (warm_up tree states []) (c.idOf, true) = some v := by
  have main : ∀ (states' : List String) (memo : Memo), MemoOK tree memo → s ∈ states' →
      ∀ c ∈ t.childrenOf, ∃ v, minmaxNode c true = .ok v ∧
        lookupA (warm_up tree states' memo) (c.idOf, true) = some v := by
    intro states'
    induction states' with
    | nil => intro memo hm hs'; exact absurd hs' (List.not_mem_nil s)
    | cons s0 rest ih =>
      intro memo hm hs' c hc
      have hstep := determine_move_memo_ok tree hU s0 false memo hm
      rcases List.mem_cons.1 hs' with rfl | hs'
      · -- the candidate itself is processed here
        have h1 : (determine_move tree s false memo).1 = .ok l := by
          rw [hstep.1, hok]
        obtain ⟨v, hv, hlook⟩ := hstep.2.2.2 t hf l h1 c hc
        have hpres := warm_up_preserves tree hU rest
          (determine_move tree s false memo).2 hstep.2.1
        exact ⟨v, hv, hpres.2 (c.idOf, true) v hlook⟩
      · exact ih (determine_move tree s0 false memo).2 hstep.2.1 hs' c hc
  exact main states [] (MemoOK_nil tree) hs

theorem warm_up_covers_children_witness :
    lookupA (warm_up tree3 ["root"] []) ("a", true) = some 1 := by
  obtain ⟨v, hv, hl⟩ := warm_up_covers_children tree3 tree3_unique ["root"] "root"
    (List.mem_cons_self "root" []) tree3 rfl ['b'] rfl
    (GTree.node "a" ⟨true, 1⟩ []) (List.mem_cons_self _ _)
  have h1 : minmaxNode (GTree.node "a" ⟨true, 1⟩ []) true = .ok 1 := rfl
  rw [h1] at hv
  injection hv with h2
  rw [← h2] at hl
  exact hl

theorem find_shape_none (d1 d2 d3 : NodeData) (s : String)
    (h1 : s ≠ "root") (h2 : s ≠ "a") (h3 : s ≠ "ab") :
    GTree.find
      (GTree.node "root" d1 [GTree.node "a" d2 [GTree.node "ab" d3 []]]) s = none := by
  simp [GTree.find, GTree.findL, Ne.symm h1, Ne.symm h2, Ne.symm h3]

theorem all_states_ne_root : ∀ s ∈ all_states, s ≠ "root" := by
  intro s hs h
  subst h
  have h3 := ((all_states_iff "root").1 hs).2.2
  have hr : 'r' ∈ moveAlphabet := h3.subset (by decide)
  exact absurd hr (by decide)

/-- C6 counterexample: in the tree root → "a" → "ab" (with "a" a valid,
reachable, non-terminal position of length 1), running the warm-up driver
over all its candidates leaves no cache entry for "a" at the warm-up role
`False` (nor at `True`, nor for the root at `False`): `determine_move`
caches only the children of the queried candidates, and "a" is a child
only of the root, which is never a candidate. -/
theorem warm_up_misses_shallow_positions :
    treeSmall.find "a" =
      some (GTree.node "a" ⟨false, 0⟩ [GTree.node "ab" ⟨true, 0⟩ []]) ∧
    lookupA (warm_up treeSmall all_states []) ("a", false) = none ∧
    lookupA (warm_up treeSmall all_states []) ("a", true) = none ∧
    lookupA (warm_up treeSmall all_states []) ("root", false) = none := by
  have hinv : ∀ s ∈ all_states, ∀ m,
      (m = [] ∨ m = [(("ab", true), 0)]) →
      ((determine_move treeSmall s false m).2 = [] ∨
        (determine_move treeSmall s false m).2 = [(("ab", true), 0)]) := by
    intro s hs m hm
    by_cases ha : s = "a"
    · subst ha
      rcases hm with rfl | rfl
      · exact Or.inr rfl
      · exact Or.inr rfl
    · by_cases hab : s = "ab"
      · subst hab
        rcases hm with rfl | rfl
        · exact Or.inl rfl
        · exact Or.inr rfl
      · have hf : treeSmall.find s = none :=
          find_shape_none _ _ _ s (all_states_ne_root s hs) ha hab
        rw [determine_move_notfound treeSmall s false m hf]
        exact hm
  have h := warm_up_inv treeSmall
    (fun m => m = [] ∨ m = [(("ab", true), 0)]) all_states hinv [] (Or.inl rfl)
  rcases h with h | h <;> rw [h] <;> exact ⟨rfl, rfl, rfl, rfl⟩

/-- C8 amended: the warm-up driver's bare `except: pass` catches and
discards *every* error raised by `determine_move` — `InvalidTree`-kind
errors included — keeping the memo accumulated so far and continuing with
the remaining candidates; no error kind propagates out of the driver. -/
theorem warm_up_catches_all_errors (tree : GTree) (s : String) (rest : List String)
    (memo : Memo) (e : Err) (he : (determine_move tree s false memo).1 = .error e) :
    (determine_move tree s false memo).1 = .error e ∧
    warm_up tree (s :: rest) memo =
      warm_up tree rest (determine_move tree s false memo).2 := ⟨he, rfl⟩

theorem warm_up_catches_all_errors_witness :
    (determine_move treeBad "a" false []).1 = .error Err.InvalidTree ∧
    warm_up treeBad ["a"] [] = warm_up treeBad [] (determine_move treeBad "a" false []).2 :=
  warm_up_catches_all_errors treeBad "a" [] [] Err.InvalidTree rfl

/-- C8 counterexample: on the malformed tree root → "a" → "ab" with "ab"
non-terminal and childless, the candidate "a" (which the driver does
generate) makes `determine_move` raise the `InvalidTree`-kind error, yet
the warm-up run completes normally with the error swallowed — the bare
`except:` does not let `InvalidTree` propagate as fatal. -/
theorem warm_up_swallows_invalid_tree :
    ("a" : String) ∈ all_states ∧
    (determine_move treeBad "a" false []).1 = .error Err.InvalidTree ∧
    warm_up treeBad all_states [] = [] := by
  refine ⟨?_, rfl, ?_⟩
  · refine (all_states_iff "a").2 ⟨by decide, by decide, ?_⟩
    exact List.Sublist.subperm ((List.nil_sublist _).cons₂ 'a')
  · have hinv : ∀ s ∈ all_states, ∀ m, m = [] →
        (determine_move treeBad s false m).2 = [] := by
      intro s hs m hm
      subst hm
      by_cases ha : s = "a"
      · subst ha
        rfl
      · by_cases hab : s = "ab"
        · subst hab
          rfl
        · rw [determine_move_notfound treeBad s false []
            (find_shape_none _ _ _ s (all_states_ne_root s hs) ha hab)]
    exact warm_up_inv treeBad (fun m => m = []) all_states hinv [] rfl
